import Mathlib

/-!
Verification of the text-splice / resource-extraction core of the
odemasterpro repository (client/src/lib/workshopUtils.ts and the
PrefetchWorkshop component).

The embedding works over `List Char` buffers.  JavaScript strings are
modelled as lists of characters, JavaScript regexes as terms of a small
backtracking regular-expression engine (`RE`, `matchRE`) whose result
order mirrors the JS backtracking order (greedy quantifiers first,
alternatives left to right), and the `exec`-with-`g`-flag loop as
`execAllPos` (leftmost match, continue after the match end).
-/

set_option maxHeartbeats 4000000
set_option maxRecDepth 100000

namespace Ode

open scoped List

/-- Character lists standing for JavaScript strings. -/
abbrev Chars := List Char

/-- The opening brace character, written via its code point. -/
def lbrace : Char := Char.ofNat 123

/-- The closing brace character, written via its code point. -/
def rbrace : Char := Char.ofNat 125

/-- The double-quote character. -/
def dquote : Char := Char.ofNat 34

/-- The single-quote character. -/
def squote : Char := Char.ofNat 39

/-- Convert a Lean string literal to the character-list representation. -/
def chars (s : String) : Chars := s.data

/-- The JavaScript whitespace class `\s` restricted to the ASCII range
(space, tab, line feed, carriage return, vertical tab, form feed); all
inputs in this development are ASCII. -/
def jsWS (c : Char) : Bool :=
  c = ' ' || c = '\t' || c = '\n' || c = '\r' || c = Char.ofNat 11 || c = Char.ofNat 12

/-- Case-insensitive character comparison, modelling the `i` regex flag
on ASCII input. -/
def ciEq (a b : Char) : Bool := a.toLower = b.toLower

/-- Case-insensitive list-prefix test. -/
def ciPrefixOf : Chars → Chars → Bool
  | [], _ => true
  | _ :: _, [] => false
  | a :: as, b :: bs => ciEq a b && ciPrefixOf as bs

/-- Split a character list on a separator character, JavaScript
`String.prototype.split` semantics: the empty string yields `[""]` and a
trailing separator yields a trailing empty piece. -/
def splitOnChar (sep : Char) : Chars → List Chars
  | [] => [[]]
  | a :: rest =>
    if a = sep then [] :: splitOnChar sep rest
    else
      match splitOnChar sep rest with
      | [] => [[a]]
      | l :: ls => (a :: l) :: ls

/-- Join pieces with a separator character, inverse of `splitOnChar`. -/
def joinWithChar (sep : Char) : List Chars → Chars
  | [] => []
  | [l] => l
  | l :: ls => l ++ sep :: joinWithChar sep ls

/-- Split a buffer into its lines (`code.split('\n')`). -/
def splitLines (s : Chars) : List Chars := splitOnChar '\n' s

/-- Join lines back into a buffer (`lines.join('\n')`). -/
def joinLines (ls : List Chars) : Chars := joinWithChar '\n' ls

/-- JavaScript `String.prototype.trim` on ASCII input. -/
def trimChars (s : Chars) : Chars :=
  ((s.dropWhile jsWS).reverse.dropWhile jsWS).reverse

/-- Leading whitespace of a line (the regex `^(\s*)` capture). -/
def leadingWS (line : Chars) : Chars := line.takeWhile jsWS

/-- Indexed map, used where the source maps with `(line, index)`. -/
def mapWithIdx (f : Nat → α → β) : List α → Nat → List β
  | [], _ => []
  | a :: rest, i => f i a :: mapWithIdx f rest (i + 1)

/-- Does `sub` occur as a contiguous run inside `s`? -/
def hasSub (sub : Chars) : Chars → Bool
  | [] => sub.isEmpty
  | s@(_ :: rest) => sub.isPrefixOf s || hasSub sub rest

/-- Substring test (JavaScript `String.prototype.includes`, which is
case sensitive). -/
def includesS (s : Chars) (sub : String) : Bool := hasSub sub.data s

/-- Case-insensitive suffix test, modelling an end-anchored
case-insensitive regex alternative such as `\.woff$`. -/
def endsWithCI (s : Chars) (suf : String) : Bool :=
  ciPrefixOf suf.data.reverse s.reverse

/-- Case-sensitive prefix test (JavaScript `String.prototype.startsWith`). -/
def startsWithS (s : Chars) (pre : String) : Bool := pre.data.isPrefixOf s

/-! ## A small backtracking regular-expression engine

Each JavaScript regex used by the source is transcribed as an `RE` term.
`matchRE` returns every parse at the start of the input, in JS
backtracking priority order; the head of the list is the parse the JS
engine commits to. -/

/-- Regular expressions: case-sensitive and case-insensitive literals, a
single-character class, alternation, sequence, greedy star, lazy star,
greedy option and a numbered capture group. -/
inductive RE where
  | eps : RE
  | lit : Chars → RE
  | litci : Chars → RE
  | cls : (Char → Bool) → RE
  | alt : RE → RE → RE
  | seq : RE → RE → RE
  | star : RE → RE
  | starL : RE → RE
  | opt : RE → RE
  | grp : Nat → RE → RE

/-- Sequence a list of regex parts left to right. -/
def reSeq (rs : List RE) : RE := rs.foldr RE.seq RE.eps

/-- One-or-more, as used for the `+` quantifier. -/
def rePlus (r : RE) : RE := RE.seq r (RE.star r)

/-- A parse: consumed characters, remaining input, captured groups. -/
abbrev REResult := Chars × Chars × List (Nat × Chars)

/-- All parses of `re` at the start of `s`, in JS backtracking priority
order (greedy quantifiers try the longer parse first, lazy quantifiers
the shorter, alternatives left to right).  Recursion is structural on
`fuel`, which strictly over-approximates the recursion depth when
callers go through `matchTop`; every star body below consumes at least
one character (the engine skips empty star iterations, as JS engines
break empty-match loops). -/
def matchRE : Nat → RE → Chars → List REResult
  | 0, _, _ => []
  | fuel + 1, re, s =>
    match re with
    | .eps => [([], s, [])]
    | .lit p => if p.isPrefixOf s then [(p, s.drop p.length, [])] else []
    | .litci p =>
      if ciPrefixOf p s then [(s.take p.length, s.drop p.length, [])] else []
    | .cls f =>
      match s with
      | [] => []
      | c :: rest => if f c then [([c], rest, [])] else []
    | .alt r₁ r₂ => matchRE fuel r₁ s ++ matchRE fuel r₂ s
    | .seq r₁ r₂ =>
      (matchRE fuel r₁ s).flatMap (fun p₁ =>
        (matchRE fuel r₂ p₁.2.1).map (fun p₂ =>
          (p₁.1 ++ p₂.1, p₂.2.1, p₁.2.2 ++ p₂.2.2)))
    | .opt r => matchRE fuel r s ++ [([], s, [])]
    | .grp i r =>
      (matchRE fuel r s).map (fun p => (p.1, p.2.1, p.2.2 ++ [(i, p.1)]))
    | .star r =>
      ((matchRE fuel r s).flatMap (fun p₁ =>
        if p₁.1 = [] then []
        else (matchRE fuel (.star r) p₁.2.1).map (fun p₂ =>
          (p₁.1 ++ p₂.1, p₂.2.1, p₁.2.2 ++ p₂.2.2)))) ++ [([], s, [])]
    | .starL r =>
      [([], s, [])] ++
      ((matchRE fuel r s).flatMap (fun p₁ =>
        if p₁.1 = [] then []
        else (matchRE fuel (.starL r) p₁.2.1).map (fun p₂ =>
          (p₁.1 ++ p₂.1, p₂.2.1, p₁.2.2 ++ p₂.2.2))))

/-- Structural size of a regular expression, for the fuel bound. -/
def reSizeN : RE → Nat
  | .eps | .lit _ | .litci _ | .cls _ => 1
  | .alt r₁ r₂ | .seq r₁ r₂ => 1 + reSizeN r₁ + reSizeN r₂
  | .star r | .starL r | .opt r | .grp _ r => 1 + reSizeN r

/-- Fuel that over-approximates the recursion depth of `matchRE`: every
recursive call either moves to a structurally smaller regex on the same
input, or unrolls a star onto a strictly shorter input. -/
def matchFuel (re : RE) (s : Chars) : Nat :=
  reSizeN re * (s.length + 2) + 1

/-- Match with sufficient fuel. -/
def matchTop (re : RE) (s : Chars) : List REResult :=
  matchRE (matchFuel re s) re s

/-- The `exec`-with-`g`-flag loop: starting at absolute position `pos`,
find the leftmost match at or after the current position, record its
index, text and captures, and continue after the match end (JS advances
one position past a zero-width match). -/
def execAllPosAux (re : RE) : Nat → Chars → Nat → List (Nat × Chars × List (Nat × Chars))
  | 0, _, _ => []
  | _ + 1, [], _ => []
  | fuel + 1, s@(_ :: rest), pos =>
    match (matchTop re s).head? with
    | some (c, remaining, g) =>
      if c.isEmpty then execAllPosAux re fuel rest (pos + 1)
      else (pos, c, g) :: execAllPosAux re fuel remaining (pos + c.length)
    | none => execAllPosAux re fuel rest (pos + 1)

/-- All matches of `re` over `s`, with match indices and captures. -/
def execAllPos (re : RE) (s : Chars) : List (Nat × Chars × List (Nat × Chars)) :=
  execAllPosAux re (s.length + 1) s 0

/-- JavaScript `RegExp.prototype.test`: does the regex match anywhere? -/
def reTest (re : RE) : Chars → Bool
  | [] => !(matchTop re []).isEmpty
  | s@(_ :: rest) => !(matchTop re s).isEmpty || reTest re rest

/-- First match of `re` over `s` (a non-global `String.prototype.replace`
looks only at this one), as index and matched text. -/
def reFirstMatch (re : RE) (s : Chars) : Option (Nat × Chars) :=
  (execAllPos re s).head?.map (fun m => (m.1, m.2.1))

/-- Capture-group access modelling `match[i] || fallback`: an absent or
empty (falsy) capture falls back. -/
def capOr (caps : List (Nat × Chars)) (i : Nat) (fallback : Chars) : Chars :=
  match (caps.reverse.find? (fun p => p.1 = i)).map Prod.snd with
  | some c => if c.isEmpty then fallback else c
  | none => fallback

/-! ## The URL patterns of analyzeExternalResources

Transcriptions of the six regexes in `analyzeExternalResources`
(workshopUtils.ts lines 254-267), all with the `gi` flags. -/

/-- The character class matching one of the two quote characters. -/
def quoteCls : RE := .cls (fun c => c = dquote || c = squote)

/-- Zero or more `\s` characters. -/
def wsStar : RE := .star (.cls jsWS)

/-- One or more `\s` characters. -/
def wsPlus : RE := rePlus (.cls jsWS)

/-- Pattern 1, attribute values:
`(?:src|href|url)\s*=\s*["']([^"'\s]+)["']`. -/
def p1 : RE :=
  reSeq [.alt (.litci (chars "src")) (.alt (.litci (chars "href")) (.litci (chars "url"))),
         wsStar, .lit (chars "="), wsStar, quoteCls,
         .grp 1 (rePlus (.cls (fun c => !(c = dquote || c = squote || jsWS c)))),
         quoteCls]

/-- Pattern 2, the CSS url function:
`url\(["']?([^"'\)\s]+)["']?\)`. -/
def p2 : RE :=
  reSeq [.litci (chars "url"), .lit (chars "("), .opt quoteCls,
         .grp 1 (rePlus (.cls (fun c => !(c = dquote || c = squote || c = ')' || jsWS c)))),
         .opt quoteCls, .lit (chars ")")]

/-- Pattern 3, direct HTTP URLs:
`https?:\/\/[^\s"'<>\)\}]+` (no capture group; the whole match is used). -/
def p3 : RE :=
  reSeq [.litci (chars "http"), .opt (.litci (chars "s")), .lit (chars "://"),
         rePlus (.cls (fun c =>
           !(jsWS c || c = dquote || c = squote || c = '<' || c = '>' || c = ')' || c = rbrace)))]

/-- Pattern 4, import statements:
`import\s+[^\n]*from\s+["']([^"']+)["']`. -/
def p4 : RE :=
  reSeq [.litci (chars "import"), wsPlus, .star (.cls (fun c => c ≠ '\n')),
         .litci (chars "from"), wsPlus, quoteCls,
         .grp 1 (rePlus (.cls (fun c => !(c = dquote || c = squote)))),
         quoteCls]

/-- Pattern 5, CSS imports: `@import\s+["']([^"']+)["']`. -/
def p5 : RE :=
  reSeq [.litci (chars "@import"), wsPlus, quoteCls,
         .grp 1 (rePlus (.cls (fun c => !(c = dquote || c = squote)))),
         quoteCls]

/-- Pattern 6, link tags:
`<link[^>]*\s(?:href)=["']([^"']+)["'][^>]*>`. -/
def p6 : RE :=
  reSeq [.litci (chars "<link"), .star (.cls (fun c => c ≠ '>')), .cls jsWS,
         .litci (chars "href"), .lit (chars "="), quoteCls,
         .grp 1 (rePlus (.cls (fun c => !(c = dquote || c = squote)))),
         quoteCls, .star (.cls (fun c => c ≠ '>')), .lit (chars ">")]

/-! ## analyzeExternalResources (workshopUtils.ts lines 241-327) -/

/-- The resource `type` union. -/
inductive ResType where
  | font | api | cdn | image | script
deriving DecidableEq, Repr

/-- The hint union used in the `recommendation` field. -/
inductive Hint where
  | preconnect | dnsPrefetch | prefetch
deriving DecidableEq, Repr

/-- One entry of the `resources` array.  The `existing` field models
the optional `existing` property that PrefetchWorkshop probes with
`'existing' in resource && resource.existing`; `analyzeExternalResources`
builds its entries as `{ url, type, recommendation }` and never sets it,
so it is `none` at every construction site below. -/
structure Resource where
  url : Chars
  type : ResType
  recommendation : Hint
  existing : Option Hint
deriving DecidableEq, Repr

/-- The if-else classification chain of `analyzeExternalResources`
(lines 279-315), translated branch for branch and in order. -/
def classify (url : Chars) : ResType × Hint :=
  if includesS url "fonts.googleapis.com" || includesS url "fonts.gstatic.com" ||
     includesS url "typekit.net" || includesS url "fonts.com" ||
     endsWithCI url ".woff" || endsWithCI url ".woff2" || endsWithCI url ".ttf" ||
     endsWithCI url ".otf" || endsWithCI url ".eot" then
    (.font, .preconnect)
  else if includesS url "api." || includesS url "/api/" ||
          (includesS url "googleapis.com" && !includesS url "fonts") ||
          includesS url "ajax." || includesS url "rest." || includesS url "graphql." then
    (.api, .dnsPrefetch)
  else if includesS url "cdn." || includesS url "jsdelivr" || includesS url "unpkg" ||
          includesS url "cdnjs." || includesS url "bootstrap" || includesS url "tailwindcss" then
    (.cdn, .prefetch)
  else if endsWithCI url ".jpg" || endsWithCI url ".jpeg" || endsWithCI url ".png" ||
          endsWithCI url ".webp" || endsWithCI url ".gif" || endsWithCI url ".svg" ||
          endsWithCI url ".ico" || endsWithCI url ".bmp" then
    (.image, .prefetch)
  else if endsWithCI url ".js" || endsWithCI url ".css" || endsWithCI url ".json" then
    (.script, .prefetch)
  else if includesS url "google-analytics.com" || includesS url "facebook.com" ||
          includesS url "twitter.com" || includesS url "youtube.com" ||
          includesS url "analytics." || includesS url "tracking." then
    (.api, .dnsPrefetch)
  else
    (.cdn, .prefetch)

/-- The candidate URL of one regex match: `match[1] || match[0]`. -/
def matchUrl (m : Nat × Chars × List (Nat × Chars)) : Chars :=
  capOr m.2.2 1 m.2.1

/-- All candidate URLs produced by running the six patterns in order
over the content, each pattern exhausting its `exec` loop. -/
def candidateUrls (content : Chars) : List Chars :=
  ([p1, p2, p3, p4, p5, p6].map (fun re => (execAllPos re content).map matchUrl)).flatten

/-- The body of the match loop: keep a candidate only when it is
non-empty (truthy), starts with `http` and is not in the `uniqueUrls`
set; classify and push.  `seen` threads the `uniqueUrls` set. -/
def processUrls : List Chars → List Chars → List Resource
  | [], _ => []
  | url :: rest, seen =>
    if !url.isEmpty && startsWithS url "http" && !seen.contains url then
      ⟨url, (classify url).1, (classify url).2, none⟩ :: processUrls rest (url :: seen)
    else
      processUrls rest seen

/-- Stable insertion: place `a` after every element `b` of the sorted
accumulator with `le b a`. -/
def insertStable (le : α → α → Bool) (a : α) : List α → List α
  | [] => [a]
  | b :: l => if le b a then b :: insertStable le a l else a :: b :: l

/-- Stable sort by a boolean comparator, modelling
`Array.prototype.sort` with a consistent comparator: ECMA-262 requires
the result to be sorted and the sort to be stable, which determines it
uniquely; this left-to-right insertion sort is that stable sort. -/
def jsSort (le : α → α → Bool) (l : List α) : List α :=
  l.foldl (fun acc a => insertStable le a acc) []

/-- Priority used by the final sort comparator
(`{ 'preconnect': 0, 'dns-prefetch': 1, 'prefetch': 2 }`). -/
def hintOrder : Hint → Nat
  | .preconnect => 0
  | .dnsPrefetch => 1
  | .prefetch => 2

/-- The comparator `order[a.recommendation] - order[b.recommendation]`
as the stable-sort ordering it induces. -/
def resourceLE (a b : Resource) : Bool :=
  hintOrder a.recommendation ≤ hintOrder b.recommendation

/-- `analyzeExternalResources` (lines 241-327): collect candidate URLs
with the six patterns, filter and deduplicate, classify, then stable-sort
by recommendation priority. -/
def analyzeExternalResources (content : Chars) : List Resource :=
  jsSort resourceLE (processUrls (candidateUrls content) [])

/-! ## parseCSS and parseCSSFromFiles (workshopUtils.ts lines 548-641) -/

/-- The CSS rule pattern `([^{]+)\{([^}]+)\}` with the `g` flag. -/
def pCSSRule : RE :=
  reSeq [.grp 1 (rePlus (.cls (fun c => c ≠ lbrace))), .lit [lbrace],
         .grp 2 (rePlus (.cls (fun c => c ≠ rbrace))), .lit [rbrace]]

/-- The style tag pattern `<style[^>]*>([\s\S]*?)<\/style>` with the
`gi` flags; the lazy star makes the body non-greedy. -/
def pStyle : RE :=
  reSeq [.litci (chars "<style"), .star (.cls (fun c => c ≠ '>')), .lit (chars ">"),
         .grp 1 (.starL (.cls (fun _ => true))), .litci (chars "</style>")]

/-- One parsed CSS rule, as produced by `parseCSS`. -/
structure CSSRule where
  selector : Chars
  properties : List (Chars × Chars)
  startLine : Nat
  endLine : Nat
  rawContent : Chars
deriving DecidableEq, Repr

/-- JavaScript object property write `obj[key] = value`: an existing key
keeps its insertion position and is overwritten, a new key is appended. -/
def objInsert (m : List (Chars × Chars)) (k v : Chars) : List (Chars × Chars) :=
  if m.any (fun p => p.1 = k) then
    m.map (fun p => if p.1 = k then (k, v) else p)
  else
    m ++ [(k, v)]

/-- Parse one declaration block: split on `;`, split each piece on `:`,
trim key and value, and keep the pair only when both are truthy
(lines 574-579). -/
def parseProps (propsStr : Chars) : List (Chars × Chars) :=
  (splitOnChar ';' propsStr).foldl
    (fun m piece =>
      let parts := (splitOnChar ':' piece).map trimChars
      match parts.head?, parts[1]? with
      | some k, some v => if !k.isEmpty && !v.isEmpty then objInsert m k v else m
      | _, _ => m)
    []

/-- Count the newline characters of a buffer
(`text.split('\n').length - 1`). -/
def countNL (s : Chars) : Nat := s.count '\n'

/-- `parseCSS` (lines 548-596): run the global rule regex, and for each
match record the trimmed selector, the parsed declaration block, the
0-based start line (newlines before the match start) and end line
(start line plus newlines inside the match), and the raw match text.
The `CodeManipulator` constructed at the top of the source function is
never used and is omitted. -/
def parseCSS (content : Chars) : List CSSRule :=
  (execAllPos pCSSRule content).map (fun m =>
    let startLine := countNL (content.take m.1)
    { selector := trimChars (capOr m.2.2 1 [])
      properties := parseProps (trimChars (capOr m.2.2 2 []))
      startLine := startLine
      endLine := startLine + countNL m.2.1
      rawContent := m.2.1 })

/-- The file kind, inferred externally from the file extension. -/
inductive FileKind where
  | html | css | js | json | text
deriving DecidableEq, Repr

/-- A project file record `{ name, content, type }`. -/
structure ProjectFile where
  name : Chars
  content : Chars
  type : FileKind
deriving DecidableEq, Repr

/-- One entry of the `allRules` array built by `parseCSSFromFiles`: the
`parseCSS` fields spread together with the source label and the 1-based
display line numbers. -/
structure ParsedRule where
  selector : Chars
  properties : List (Chars × Chars)
  startLine : Nat
  endLine : Nat
  rawContent : Chars
  source : Chars
  fileName : Chars
  lineNumber : Nat
  endLineNumber : Nat
deriving DecidableEq, Repr

/-- `parseCSSFromFiles` (lines 599-641): parse dedicated CSS files with
`parseCSS` (line numbers shifted to 1-based), then parse the bodies of
`<style>` tags of HTML files, offsetting line numbers by
`styleTagLineOffset = prefix.split('\n').length`. -/
def parseCSSFromFiles (files : List ProjectFile) : List ParsedRule :=
  let cssFiles := files.filter (fun f => f.type = .css)
  let htmlFiles := files.filter (fun f => f.type = .html)
  (cssFiles.map (fun file =>
    (parseCSS file.content).map (fun rule =>
      { selector := rule.selector
        properties := rule.properties
        startLine := rule.startLine
        endLine := rule.endLine
        rawContent := rule.rawContent
        source := file.name
        fileName := file.name
        lineNumber := rule.startLine + 1
        endLineNumber := rule.endLine + 1 }))).flatten ++
  (htmlFiles.map (fun file =>
    ((execAllPos pStyle file.content).map (fun m =>
      let cssContent := capOr m.2.2 1 []
      let styleTagLineOffset := countNL (file.content.take m.1) + 1
      (parseCSS cssContent).map (fun rule =>
        { selector := rule.selector
          properties := rule.properties
          startLine := rule.startLine
          endLine := rule.endLine
          rawContent := rule.rawContent
          source := file.name ++ chars " (inline)"
          fileName := file.name
          lineNumber := rule.startLine + styleTagLineOffset + 1
          endLineNumber := rule.endLine + styleTagLineOffset + 1 }))).flatten)).flatten

/-! ## CodeManipulator (workshopUtils.ts lines 345-545)

The class holds `original` (the construction-time buffer) and `lines`
(its split); each method is modelled as a function of the buffer. -/

/-- A located span `{ startLine, endLine, startCol, endCol, content }`. -/
structure CodeLocation where
  startLine : Nat
  endLine : Nat
  startCol : Nat
  endCol : Nat
  content : Chars
deriving DecidableEq, Repr

/-- Net brace delta of a line:
`(line.match(/\{/g) || []).length - (line.match(/\}/g) || []).length`. -/
def braceDelta (line : Chars) : Int :=
  (line.count lbrace : Int) - (line.count rbrace : Int)

/-- The selector regex of `findCSSRule` (line 407):
`^\s*ESCAPED\s*\{` with the `i` flag, where `ESCAPED` is the selector
with every regex metacharacter escaped, hence a literal. -/
def selectorRE (sel : Chars) : RE :=
  reSeq [wsStar, .litci sel, wsStar, .lit [lbrace]]

/-- `selectorRegex.test(line)`: the regex is anchored at the line start
by `^`, so the test is a match at position 0. -/
def selectorMatches (sel line : Chars) : Bool :=
  !(matchTop (selectorRE sel) line).isEmpty

/-- The closing phase of the `findCSSRule` scan (lines 429-444): a rule
opened at `ruleStart` is tracked over the remaining lines, accumulating
raw brace deltas, until the depth returns to zero; `allLines` is the
full line array used for the content slice, `i` is the index of the
first remaining line. -/
def findCSSRuleClose (allLines : List Chars) (ruleStart : Nat) :
    Int → List Chars → Nat → Option CodeLocation
  | _, [], _ => none
  | braceCount, line :: rest, i =>
    let bc := braceCount + braceDelta line
    if bc = 0 then
      some { startLine := ruleStart, endLine := i, startCol := 0, endCol := line.length,
             content := joinLines ((allLines.drop ruleStart).take (i + 1 - ruleStart)) }
    else
      findCSSRuleClose allLines ruleStart bc rest (i + 1)

/-- The opening phase of the `findCSSRule` scan (lines 411-427): find
the first line whose start matches the selector regex; a zero brace
delta on that line yields a single-line span, otherwise the closing
phase takes over. -/
def findCSSRuleOpen (sel : Chars) (allLines : List Chars) :
    List Chars → Nat → Option CodeLocation
  | [], _ => none
  | line :: rest, i =>
    if selectorMatches sel line then
      if braceDelta line = 0 then
        some { startLine := i, endLine := i, startCol := 0, endCol := line.length,
               content := line }
      else
        findCSSRuleClose allLines i (braceDelta line) rest (i + 1)
    else
      findCSSRuleOpen sel allLines rest (i + 1)

/-- `findCSSRule` (lines 406-448): the constructor splits the code into
lines, and the scan starts at line 0 with no rule open. -/
def findCSSRule (sel : Chars) (code : Chars) : Option CodeLocation :=
  findCSSRuleOpen sel (splitLines code) (splitLines code) 0

/-- Index of the first element satisfying a predicate. -/
def firstIdxWhere (p : α → Bool) : List α → Option Nat
  | [] => none
  | a :: l => if p a then some 0 else (firstIdxWhere p l).map (· + 1)

/-- Cumulative brace depth after the first `k` lines of `lines`, on top
of an initial depth `d`. -/
def cumDepth (d : Int) (lines : List Chars) (k : Nat) : Int :=
  d + ((lines.take k).map braceDelta).sum

/-- Declarative reading of `findCSSRule`, following the specified
behaviour word for word: the rule opens on the first line matching the
selector regex; with zero net braces on that line the span is that
single line; otherwise the span runs to the first subsequent line on
which the accumulated depth returns to zero, with content the joined
text of the range; no such line means not-found. -/
def findCSSRuleSpec (sel : Chars) (code : Chars) : Option CodeLocation :=
  match firstIdxWhere (fun l => selectorMatches sel l) (splitLines code) with
  | none => none
  | some i =>
    if braceDelta ((splitLines code).getD i []) = 0 then
      some { startLine := i, endLine := i, startCol := 0,
             endCol := ((splitLines code).getD i []).length,
             content := (splitLines code).getD i [] }
    else
      match firstIdxWhere (fun d => d = 0)
          ((List.range ((splitLines code).drop (i + 1)).length).map
            (fun k => cumDepth (braceDelta ((splitLines code).getD i []))
              ((splitLines code).drop (i + 1)) (k + 1))) with
      | none => none
      | some k =>
        some { startLine := i, endLine := i + 1 + k, startCol := 0,
               endCol := (((splitLines code).drop (i + 1)).getD k []).length,
               content := joinLines (((splitLines code).drop i).take (k + 2)) }

/-- The head-opening tag pattern `<head[^>]*>` with the `i` flag. -/
def pHeadOpen : RE :=
  reSeq [.litci (chars "<head"), .star (.cls (fun c => c ≠ '>')), .lit (chars ">")]

/-- Does a line match `/<head[^>]*>/i`? -/
def headOpenTest (line : Chars) : Bool := reTest pHeadOpen line

/-- Does a line match `/<\/head>/i`? -/
def headCloseTest (line : Chars) : Bool := reTest (.litci (chars "</head>")) line

/-- The scan loop of `findHtmlHead` (lines 362-389): remember the first
line matching the opening tag, then return on the first line from there
on matching the closing tag.  The column and content fields of the
intermediate `headStart`/`headEnd` records are dead in the source (the
result is rebuilt from `headEnd.startLine` with columns 0-0 and empty
content), so only the line indices are threaded. -/
def findHtmlHeadLoop : List Chars → Nat → Option Nat → Option CodeLocation
  | [], _, _ => none
  | line :: rest, i, headStart =>
    match headStart with
    | none =>
      if headOpenTest line then
        if headCloseTest line then
          some { startLine := i, endLine := i, startCol := 0, endCol := 0, content := [] }
        else
          findHtmlHeadLoop rest (i + 1) (some i)
      else
        findHtmlHeadLoop rest (i + 1) none
    | some _ =>
      if headCloseTest line then
        some { startLine := i, endLine := i, startCol := 0, endCol := 0, content := [] }
      else
        findHtmlHeadLoop rest (i + 1) headStart

/-- `findHtmlHead` (lines 355-403): the insertion point just before the
closing head tag, as a zero-width span at column 0 of its line. -/
def findHtmlHead (code : Chars) : Option CodeLocation :=
  findHtmlHeadLoop (splitLines code) 0 none

/-- Declarative reading of `findHtmlHead`: take the first line matching
the opening tag and the first line from it onwards matching the closing
tag, and return the zero-width column 0-0 span on the latter;
otherwise not-found. -/
def findHtmlHeadSpec (code : Chars) : Option CodeLocation :=
  match firstIdxWhere headOpenTest (splitLines code) with
  | none => none
  | some i =>
    match firstIdxWhere headCloseTest ((splitLines code).drop i) with
    | none => none
    | some k =>
      some { startLine := i + k, endLine := i + k, startCol := 0, endCol := 0, content := [] }

/-- The indent of `getIndentedContent` (lines 504-505): the leading
whitespace of the context line, with a two-space fallback when the line
is missing (`this.lines[lineNumber] || ''`) or its leading whitespace is
the empty string (falsy). -/
def indentOf (lines : List Chars) (lineNumber : Nat) : Chars :=
  if (leadingWS (lines.getD lineNumber [])).isEmpty then chars "  "
  else leadingWS (lines.getD lineNumber [])

/-- `getIndentedContent` (lines 503-510): every content line after the
first is prefixed with the context indent. -/
def getIndentedContent (lines : List Chars) (content : Chars) (lineNumber : Nat) : Chars :=
  joinLines (mapWithIdx (fun i l => if i = 0 then l else indentOf lines lineNumber ++ l)
    (splitLines content) 0)

/-- JavaScript `array.splice(start, count, ...ins)` as a pure function:
`count` elements from `start` are replaced by `ins` (both clamped). -/
def spliceList (l : List α) (start count : Nat) (ins : List α) : List α :=
  l.take start ++ ins ++ l.drop (start + count)

/-- `insertAtLocation` (lines 451-469).  Out-of-range spans would make
the source throw on `undefined`; the embedding totalizes them with
`getD`/`set`, and every claim below restricts to in-range spans. -/
def insertAtLocation (code : Chars) (loc : CodeLocation) (content : Chars)
    (indent : Bool) : Chars :=
  let lines := splitLines code
  let insertContent := if indent then getIndentedContent lines content loc.startLine else content
  if loc.startLine = loc.endLine then
    let line := lines.getD loc.startLine []
    joinLines (lines.set loc.startLine
      (line.take loc.startCol ++ insertContent ++ line.drop loc.endCol))
  else
    joinLines (spliceList lines loc.startLine (loc.endLine + 1 - loc.startLine)
      (splitLines insertContent))

/-- `replaceAtLocation` (lines 472-480): the whole line range of the
span is replaced by the reindented new content. -/
def replaceAtLocation (code : Chars) (loc : CodeLocation) (newContent : Chars) : Chars :=
  joinLines (spliceList (splitLines code) loc.startLine (loc.endLine + 1 - loc.startLine)
    (splitLines (getIndentedContent (splitLines code) newContent loc.startLine)))

/-- `deleteAtLocation` (lines 483-500): a single-line span loses its
`[startCol, endCol)` range; a multi-line span collapses to the prefix of
its first line joined with the suffix of its last line. -/
def deleteAtLocation (code : Chars) (loc : CodeLocation) : Chars :=
  if loc.startLine = loc.endLine then
    joinLines ((splitLines code).set loc.startLine
      (((splitLines code).getD loc.startLine []).take loc.startCol ++
        ((splitLines code).getD loc.startLine []).drop loc.endCol))
  else
    joinLines (spliceList (splitLines code) loc.startLine (loc.endLine + 1 - loc.startLine)
      [((splitLines code).getD loc.startLine []).take loc.startCol ++
        ((splitLines code).getD loc.endLine []).drop loc.endCol])

/-- The change type union. -/
inductive ChangeType where
  | insert | replace | delete | append
deriving DecidableEq, Repr

/-- A `CodeChange` record. -/
structure CodeChange where
  type : ChangeType
  location : CodeLocation
  newContent : Chars
  description : Chars
deriving DecidableEq, Repr

/-- The comparator `(a, b) => b.location.startLine - a.location.startLine`
(descending start line) as the ordering it induces. -/
def changeGE (a b : CodeChange) : Bool :=
  b.location.startLine ≤ a.location.startLine

/-- One iteration of the `applyChanges` loop (lines 519-541): a fresh
manipulator is built over the running result and the change dispatched
on its type; `append` first widens `startCol` to `endCol`. -/
def applyOneChange (result : Chars) (change : CodeChange) : Chars :=
  match change.type with
  | .insert => insertAtLocation result change.location change.newContent true
  | .replace => replaceAtLocation result change.location change.newContent
  | .delete => deleteAtLocation result change.location
  | .append =>
    insertAtLocation result { change.location with startCol := change.location.endCol }
      change.newContent true

/-- `applyChanges` (lines 513-544): sort the operations by start line
descending (`Array.prototype.sort`, in place and stable), then fold them
over the original buffer. -/
def applyChanges (code : Chars) (changes : List CodeChange) : Chars :=
  (jsSort changeGE changes).foldl applyOneChange code

/-- The caller-visible state of the `changes` array after
`applyChanges` returns: `Array.prototype.sort` sorts the caller's array
object in place and returns that same object, so the array the caller
passed now holds the sorted sequence. -/
def applyChangesPost (changes : List CodeChange) : List CodeChange :=
  jsSort changeGE changes

/-! ## The PrefetchWorkshop apply path (PrefetchWorkshop component,
handleApplyAll, lines 108-188) -/

/-- The tag indentation of the smart-insert branch (lines 135-137):
non-blank lines are trimmed and given four spaces. -/
def smartIndentTags (tags : Chars) : Chars :=
  joinLines ((splitLines tags).map (fun t =>
    if (trimChars t).isEmpty then t else chars "    " ++ trimChars t))

/-- The content inserted by the smart-insert branch (lines 134-138). -/
def smartInsertContent (tags : Chars) : Chars :=
  '\n' :: chars "    <!-- Prefetch optimizations added by Prefetch Workshop -->" ++
    '\n' :: smartIndentTags tags ++ ['\n']

/-- The regex-append fallback (lines 158-161):
`content.replace(/(<head[^>]*>)/i, m => m + APPENDED)` — a non-global
replace rewrites only the first match and returns the content unchanged
when nothing matches. -/
def regexAppendFallback (content tags : Chars) : Chars :=
  match reFirstMatch pHeadOpen content with
  | none => content
  | some (idx, matched) =>
    content.take idx ++ matched ++
      ('\n' :: chars "    <!-- Prefetch optimizations -->" ++
       '\n' :: joinLines ((splitLines tags).map (fun t => chars "    " ++ t)) ++ ['\n']) ++
      content.drop (idx + matched.length)

/-- The code payload `handleApplyAll` sends (lines 108-188): with no
HTML file whose content includes `<head`, the generated tags themselves
are sent for manual insertion; otherwise the head insertion point is
looked up and either the smart insertion or the regex-append fallback
produces the modified buffer. -/
def handleApplyAllCode (files : List ProjectFile) (generatedTags : Chars) : Chars :=
  match files.find? (fun f => f.type = .html && includesS f.content "<head") with
  | none => generatedTags
  | some htmlFile =>
    match findHtmlHead htmlFile.content with
    | some headLocation =>
      insertAtLocation htmlFile.content headLocation (smartInsertContent generatedTags) false
    | none => regexAppendFallback htmlFile.content generatedTags

/-! ## Specification-side definitions used by the claim statements -/

/-- Trailing-whitespace normalization of a buffer: every line loses its
trailing whitespace. -/
def normTrailing (code : Chars) : Chars :=
  joinLines ((splitLines code).map (fun l => (l.reverse.dropWhile jsWS).reverse))

/-- First-occurrence deduplication against an already-seen set. -/
def dedupKeepFirst (seen : List Chars) : List Chars → List Chars
  | [] => []
  | u :: rest =>
    if seen.contains u then dedupKeepFirst seen rest
    else u :: dedupKeepFirst (u :: seen) rest

/-- The candidate filter of the URL-discovery pass as the code
implements it: truthy and starting with `http`. -/
def keptUrl (u : Chars) : Bool := !u.isEmpty && startsWithS u "http"

/-- Delete-on-line view of a batch: the effect of the unique delete
operation targeting line `i`, if any. -/
def deleteOnLine (ops : List CodeChange) (i : Nat) (l : Chars) : Chars :=
  match ops.find? (fun op => op.location.startLine = i) with
  | some op => l.take op.location.startCol ++ l.drop op.location.endCol
  | none => l

/-- The expected result of a batch of independent single-line deletes:
each targeted line loses exactly its `[startCol, endCol)` range, every
other line is untouched. -/
def batchDeleteSpec (code : Chars) (ops : List CodeChange) : Chars :=
  joinLines (mapWithIdx (fun i l => deleteOnLine ops i l) (splitLines code) 0)

/-- Validity of one single-line delete operation against a buffer. -/
def validDelete (lines : List Chars) (op : CodeChange) : Prop :=
  op.type = .delete ∧
  op.location.startLine = op.location.endLine ∧
  op.location.startLine < lines.length ∧
  op.location.startCol ≤ op.location.endCol ∧
  op.location.endCol ≤ (lines.getD op.location.startLine []).length

instance (lines : List Chars) (op : CodeChange) : Decidable (validDelete lines op) := by
  unfold validDelete
  infer_instance

/-- Partition rank for the ordering claim: entries with an existing hint
set rank before entries without one. -/
def existingRank (r : Resource) : Nat :=
  if r.existing.isSome then 0 else 1

/-- The ordering asserted by the ordering-invariant claim: entries with
an existing hint precede entries without, and inside each partition the
recommendation priority is non-decreasing. -/
def orderingOK (a b : Resource) : Prop :=
  existingRank a < existingRank b ∨
    (existingRank a = existingRank b ∧
     hintOrder a.recommendation ≤ hintOrder b.recommendation)

/-! ## Concrete inputs used by the claim theorems -/

/-- The concrete-extraction-scenario input: a preconnect link tag plus a
bare CDN script URL. -/
def c2input : Chars :=
  chars "<link rel=\"preconnect\" href=\"https://fonts.googleapis.com\">\nhttps://cdn.example.com/lib.js"

/-- An input whose only URL is root-relative. -/
def c9input : Chars := chars "<a href=\"/styles.css\">"

/-- The four-line CSS file of the line-number claim. -/
def c4file : ProjectFile :=
  { name := chars "styles.css"
    content := chars "body \x7b\n  color: red;\n\x7d\n.x \x7b margin: 0; \x7d"
    type := .css }

/-- A three-line buffer with one multi-line CSS rule. -/
def c1buf : Chars := chars "body \x7b\n  color: red;\n\x7d"

/-- The span `findCSSRule` locates for selector `body` in `c1buf`. -/
def c1loc : CodeLocation :=
  { startLine := 0, endLine := 2, startCol := 0, endCol := 1, content := c1buf }

/-- The head-less buffer of the fallback claim. -/
def c6buf : Chars := chars "<html><body>no head here</body></html>"

/-- A generated prefetch snippet. -/
def c6tags : Chars := chars "<link rel=\"preconnect\" href=\"https://fonts.googleapis.com\">"

/-- A buffer whose head tag is never closed. -/
def c6buf2 : Chars := chars "<head>\n<body>"

/-- The head-less buffer wrapped as the project's only HTML file. -/
def c6file : ProjectFile :=
  { name := chars "index.html", content := c6buf, type := .html }

/-- A three-line buffer with three single-line delete targets. -/
def c5buf : Chars := chars "aaa\nbbb\nccc"

/-- Delete the first character of line 0. -/
def c5op1 : CodeChange :=
  { type := .delete
    location := { startLine := 0, endLine := 0, startCol := 0, endCol := 1, content := [] }
    newContent := [], description := [] }

/-- Delete characters 1-2 of line 2. -/
def c5op2 : CodeChange :=
  { type := .delete
    location := { startLine := 2, endLine := 2, startCol := 1, endCol := 3, content := [] }
    newContent := [], description := [] }

/-- A change targeting line 0, for the in-place-sort observation. -/
def c10a : CodeChange :=
  { type := .delete
    location := { startLine := 0, endLine := 0, startCol := 0, endCol := 0, content := [] }
    newContent := [], description := [] }

/-- A change targeting line 5, for the in-place-sort observation. -/
def c10b : CodeChange :=
  { type := .delete
    location := { startLine := 5, endLine := 5, startCol := 0, endCol := 0, content := [] }
    newContent := [], description := [] }

/-! ## Lemmas: splitting and joining buffers -/

theorem splitOnChar_ne_nil (sep : Char) (s : Chars) : splitOnChar sep s ≠ [] := by
  induction s with
  | nil => simp [splitOnChar]
  | cons a rest ih =>
    simp only [splitOnChar]
    split
    · simp
    · cases h : splitOnChar sep rest <;> simp

theorem not_mem_of_mem_splitOnChar {sep : Char} {s l : Chars}
    (h : l ∈ splitOnChar sep s) : sep ∉ l := by
  induction s generalizing l with
  | nil =>
    have : l = [] := by simpa [splitOnChar] using h
    simp [this]
  | cons a rest ih =>
    simp only [splitOnChar] at h
    by_cases ha : a = sep
    · rw [if_pos ha] at h
      rcases List.mem_cons.mp h with h1 | h1
      · simp [h1]
      · exact ih h1
    · rw [if_neg ha] at h
      cases hsp : splitOnChar sep rest with
      | nil => exact absurd hsp (splitOnChar_ne_nil sep rest)
      | cons m ms =>
        simp only [hsp] at h
        rcases List.mem_cons.mp h with h | h
        · subst h
          intro hmem
          rcases List.mem_cons.mp hmem with h1 | h1
          · exact ha h1.symm
          · exact ih (hsp ▸ List.mem_cons_self m ms) h1
        · exact ih (hsp ▸ List.mem_cons_of_mem m h)

theorem joinWithChar_cons_cons (sep : Char) (a : Char) (m : Chars) (ms : List Chars) :
    joinWithChar sep ((a :: m) :: ms) = a :: joinWithChar sep (m :: ms) := by
  cases ms <;> simp [joinWithChar]

theorem joinWithChar_cons_of_ne_nil (sep : Char) (l : Chars) (ls : List Chars)
    (h : ls ≠ []) :
    joinWithChar sep (l :: ls) = l ++ sep :: joinWithChar sep ls := by
  cases ls with
  | nil => exact absurd rfl h
  | cons m ms => simp [joinWithChar]

theorem joinWithChar_splitOnChar (sep : Char) (s : Chars) :
    joinWithChar sep (splitOnChar sep s) = s := by
  induction s with
  | nil => simp [splitOnChar, joinWithChar]
  | cons a rest ih =>
    simp only [splitOnChar]
    split
    next ha =>
      subst ha
      rw [joinWithChar_cons_of_ne_nil _ _ _ (splitOnChar_ne_nil a rest), List.nil_append, ih]
    next ha =>
      cases hsp : splitOnChar sep rest with
      | nil => exact absurd hsp (splitOnChar_ne_nil sep rest)
      | cons m ms =>
        simp only [hsp]
        rw [joinWithChar_cons_cons, ← hsp, ih]

theorem splitOnChar_of_not_mem {sep : Char} {l : Chars} (hl : sep ∉ l) :
    splitOnChar sep l = [l] := by
  induction l with
  | nil => simp [splitOnChar]
  | cons a m ih =>
    have ha : ¬(a = sep) := fun h => hl (h ▸ List.mem_cons_self a m)
    have hm : sep ∉ m := fun h => hl (List.mem_cons_of_mem a h)
    simp [splitOnChar, if_neg ha, ih hm]

theorem splitOnChar_append_cons (sep : Char) (l t : Chars) (hl : sep ∉ l) :
    splitOnChar sep (l ++ sep :: t) = l :: splitOnChar sep t := by
  induction l with
  | nil => simp [splitOnChar]
  | cons a m ih =>
    have ha : ¬(a = sep) := fun h => hl (h ▸ List.mem_cons_self a m)
    have hm : sep ∉ m := fun h => hl (List.mem_cons_of_mem a h)
    simp only [List.cons_append, splitOnChar, if_neg ha, List.append_eq, ih hm]

theorem splitOnChar_joinWithChar (sep : Char) (ls : List Chars) (hne : ls ≠ [])
    (h : ∀ l ∈ ls, sep ∉ l) :
    splitOnChar sep (joinWithChar sep ls) = ls := by
  induction ls with
  | nil => exact absurd rfl hne
  | cons l ms ih =>
    cases ms with
    | nil =>
      simp only [joinWithChar]
      exact splitOnChar_of_not_mem (h l (List.mem_cons_self l []))
    | cons m ms' =>
      have : joinWithChar sep (l :: m :: ms') = l ++ sep :: joinWithChar sep (m :: ms') := by
        simp [joinWithChar]
      rw [this, splitOnChar_append_cons sep l _ (h l (List.mem_cons_self l _)),
        ih (by simp) (fun x hx => h x (List.mem_cons_of_mem l hx))]

theorem splitLines_ne_nil (s : Chars) : splitLines s ≠ [] :=
  splitOnChar_ne_nil '\n' s

theorem splitLines_no_nl {s l : Chars} (h : l ∈ splitLines s) : '\n' ∉ l :=
  not_mem_of_mem_splitOnChar h

theorem joinLines_splitLines (s : Chars) : joinLines (splitLines s) = s :=
  joinWithChar_splitOnChar '\n' s

theorem splitLines_joinLines (ls : List Chars) (hne : ls ≠ [])
    (h : ∀ l ∈ ls, '\n' ∉ l) :
    splitLines (joinLines ls) = ls :=
  splitOnChar_joinWithChar '\n' ls hne h

/-! ## Lemmas: the stable sort -/

theorem insertStable_perm (le : α → α → Bool) (a : α) (l : List α) :
    insertStable le a l ~ a :: l := by
  induction l with
  | nil => simp [insertStable]
  | cons b m ih =>
    simp only [insertStable]
    split
    · exact (ih.cons b).trans (List.Perm.swap a b m)
    · exact List.Perm.refl _

theorem foldl_insertStable_perm (le : α → α → Bool) :
    ∀ (l acc : List α), l.foldl (fun acc a => insertStable le a acc) acc ~ acc ++ l := by
  intro l
  induction l with
  | nil => simp
  | cons a m ih =>
    intro acc
    calc (a :: m).foldl (fun acc a => insertStable le a acc) acc
        = m.foldl (fun acc a => insertStable le a acc) (insertStable le a acc) := rfl
      _ ~ insertStable le a acc ++ m := ih _
      _ ~ (a :: acc) ++ m := (insertStable_perm le a acc).append_right m
      _ ~ acc ++ a :: m := List.perm_middle.symm

theorem jsSort_perm (le : α → α → Bool) (l : List α) : jsSort le l ~ l := by
  simpa [jsSort] using foldl_insertStable_perm le l []

theorem insertStable_pairwise (le : α → α → Bool)
    (total : ∀ a b, le a b = true ∨ le b a = true)
    (htrans : ∀ a b c, le a b = true → le b c = true → le a c = true)
    (a : α) {l : List α} (hl : l.Pairwise (fun x y => le x y = true)) :
    (insertStable le a l).Pairwise (fun x y => le x y = true) := by
  induction l with
  | nil => simp [insertStable]
  | cons b m ih =>
    rcases List.pairwise_cons.mp hl with ⟨hb, hm⟩
    simp only [insertStable]
    split
    case isTrue hba =>
      refine List.pairwise_cons.mpr ⟨?_, ih hm⟩
      intro x hx
      rcases List.mem_cons.mp ((insertStable_perm le a m).mem_iff.mp hx) with h | h
      · exact h ▸ hba
      · exact hb x h
    case isFalse hba =>
      have hab : le a b = true := by
        rcases total a b with h | h
        · exact h
        · exact absurd h hba
      refine List.pairwise_cons.mpr ⟨?_, hl⟩
      intro x hx
      rcases List.mem_cons.mp hx with h | h
      · exact h ▸ hab
      · exact htrans a b x hab (hb x h)

theorem jsSort_pairwise (le : α → α → Bool)
    (total : ∀ a b, le a b = true ∨ le b a = true)
    (htrans : ∀ a b c, le a b = true → le b c = true → le a c = true)
    (l : List α) :
    (jsSort le l).Pairwise (fun x y => le x y = true) := by
  have main : ∀ (l acc : List α), acc.Pairwise (fun x y => le x y = true) →
      (l.foldl (fun acc a => insertStable le a acc) acc).Pairwise (fun x y => le x y = true) := by
    intro l
    induction l with
    | nil => intro acc h; exact h
    | cons a m ih =>
      intro acc h
      exact ih _ (insertStable_pairwise le total htrans a h)
  exact main l [] List.Pairwise.nil

/-! ## Lemmas: the resource pipeline -/

theorem processUrls_existing_none :
    ∀ (urls seen : List Chars) (r : Resource), r ∈ processUrls urls seen → r.existing = none := by
  intro urls
  induction urls with
  | nil => intro seen r h; simp [processUrls] at h
  | cons u rest ih =>
    intro seen r h
    simp only [processUrls] at h
    split at h
    · rcases List.mem_cons.mp h with h1 | h1
      · simp [h1]
      · exact ih _ r h1
    · exact ih _ r h

theorem processUrls_url_fresh :
    ∀ (urls seen : List Chars),
      (∀ r ∈ processUrls urls seen, ¬ r.url ∈ seen) ∧
      (processUrls urls seen).Pairwise (fun a b => a.url ≠ b.url) := by
  intro urls
  induction urls with
  | nil => intro seen; simp [processUrls]
  | cons u rest ih =>
    intro seen
    simp only [processUrls]
    split
    next hcond =>
      have hu : ¬ u ∈ seen := by
        intro hmem
        have hct : seen.contains u = true := by
          simpa using List.elem_eq_true_of_mem hmem
        rw [hct] at hcond
        simp at hcond
      constructor
      · intro r hr
        rcases List.mem_cons.mp hr with h1 | h1
        · simpa [h1] using hu
        · intro hmem
          exact (ih (u :: seen)).1 r h1 (List.mem_cons_of_mem u hmem)
      · refine List.pairwise_cons.mpr ⟨?_, (ih (u :: seen)).2⟩
        intro r hr heq
        exact (ih (u :: seen)).1 r hr (heq ▸ List.mem_cons_self u seen)
    next =>
      exact ⟨(ih seen).1, (ih seen).2⟩

theorem resourceLE_total (a b : Resource) :
    resourceLE a b = true ∨ resourceLE b a = true := by
  rcases Nat.le_total (hintOrder a.recommendation) (hintOrder b.recommendation) with h | h
  · exact Or.inl (by simpa [resourceLE] using h)
  · exact Or.inr (by simpa [resourceLE] using h)

theorem resourceLE_trans (a b c : Resource) :
    resourceLE a b = true → resourceLE b c = true → resourceLE a c = true := by
  intro h1 h2
  simp only [resourceLE, decide_eq_true_eq] at *
  omega

theorem processUrls_map_url :
    ∀ (urls seen : List Chars),
      (processUrls urls seen).map (fun r => r.url) =
        dedupKeepFirst seen (urls.filter keptUrl) := by
  intro urls
  induction urls with
  | nil => intro seen; simp [processUrls, dedupKeepFirst]
  | cons u rest ih =>
    intro seen
    have hcond : (!u.isEmpty && startsWithS u "http" && !seen.contains u)
        = (keptUrl u && !seen.contains u) := by
      simp [keptUrl, Bool.and_assoc]
    simp only [processUrls, List.filter, hcond]
    cases hk : keptUrl u with
    | false =>
      simp only [Bool.false_and]
      rw [if_neg Bool.false_ne_true]
      exact ih seen
    | true =>
      cases hseen : seen.contains u with
      | true =>
        have hm : u ∈ seen := by simpa using hseen
        simp only [Bool.true_and, Bool.not_true, Bool.and_false]
        rw [if_neg Bool.false_ne_true, ih seen]
        simp [dedupKeepFirst, hm]
      | false =>
        have hm : ¬ u ∈ seen := by simpa using hseen
        simp only [Bool.true_and, Bool.not_false, Bool.and_true]
        rw [if_pos trivial]
        simp only [List.map_cons]
        rw [ih (u :: seen)]
        simp [dedupKeepFirst, hm]

/-! ## Claim theorems: the resource extractor -/

/-- C8: for every input text, the output of `analyzeExternalResources`
never contains two entries with the same `url` string. -/
theorem C8_dedup_invariant (content : Chars) :
    (analyzeExternalResources content).Pairwise (fun a b => a.url ≠ b.url) := by
  have h := (processUrls_url_fresh (candidateUrls content) []).2
  have hperm := jsSort_perm resourceLE (processUrls (candidateUrls content) [])
  exact (hperm.pairwise_iff (fun hxy => fun e => hxy e.symm)).mpr h

/-- C3: in every output of `analyzeExternalResources`, entries with an
existing hint precede entries without one (vacuously: the function never
sets the `existing` property, so every entry has `existing = none`), and
within each partition the recommendation priority order
preconnect(0) < dns-prefetch(1) < prefetch(2) is non-decreasing, because
the final comparator sorts exactly by that priority. -/
theorem C3_ordering_invariant (content : Chars) :
    (∀ r ∈ analyzeExternalResources content, r.existing = none) ∧
    (analyzeExternalResources content).Pairwise orderingOK := by
  have hperm := jsSort_perm resourceLE (processUrls (candidateUrls content) [])
  have hnone : ∀ r ∈ analyzeExternalResources content, r.existing = none := by
    intro r hr
    exact processUrls_existing_none _ _ r (hperm.mem_iff.mp hr)
  refine ⟨hnone, ?_⟩
  have hsorted := jsSort_pairwise resourceLE resourceLE_total resourceLE_trans
    (processUrls (candidateUrls content) [])
  refine List.Pairwise.imp_of_mem ?_ hsorted
  intro a b ha hb hle
  right
  constructor
  · simp [existingRank, hnone a ha, hnone b hb]
  · simpa [resourceLE] using hle

/-- C9 (amended): in the URL-discovery pass a matched URL is kept if and
only if it is non-empty, starts with `http` (the code has no clause for
root-relative URLs or bare filenames), and was not already seen; the
URLs of the output are exactly the first occurrences of the
`http`-prefixed candidates, up to the final priority sort. -/
theorem C9_url_filter (content : Chars) :
    ((analyzeExternalResources content).map (fun r => r.url)).Perm
      (dedupKeepFirst [] ((candidateUrls content).filter keptUrl)) := by
  have h := processUrls_map_url (candidateUrls content) []
  have hperm := (jsSort_perm resourceLE (processUrls (candidateUrls content) [])).map
    (fun r => r.url)
  exact hperm.trans (List.Perm.of_eq h)

/-- C9 counterexample: the claim asserts that a root-relative URL such
as `/styles.css` is kept; the code keeps only URLs starting with `http`,
so the extraction of `<a href="/styles.css">` is empty. -/
theorem C9_url_filter_counterexample :
    analyzeExternalResources c9input = [] ∧ keptUrl (chars "/styles.css") = false := by
  constructor <;> decide

/-- C2 (amended): on the link tag plus the bare CDN URL the extraction
yields exactly two resources: the fonts URL with kind `font` and
recommendation `preconnect`, and the CDN URL with kind `cdn` (the URL
contains `cdn.`, which the classifier checks before the `.js` extension
rule) and recommendation `prefetch`; neither carries an existing hint
(the code never sets one), and the preconnect entry sorts first. -/
theorem C2_extraction_scenario :
    analyzeExternalResources c2input =
      [{ url := chars "https://fonts.googleapis.com", type := .font,
         recommendation := .preconnect, existing := none },
       { url := chars "https://cdn.example.com/lib.js", type := .cdn,
         recommendation := .prefetch, existing := none }] := by
  decide

/-- C2 counterexample: the claim requires an entry with kind `script`
and an entry with an existing hint `preconnect`; the actual output has
neither. -/
theorem C2_extraction_counterexample :
    (analyzeExternalResources c2input).length = 2 ∧
    (analyzeExternalResources c2input).all
      (fun r => decide (r.type ≠ ResType.script) && decide (r.existing = none)) = true := by
  constructor <;> decide

/-- C10: `applyChanges` hands the caller's `changes` array to
`Array.prototype.sort`, which permutes that very array into descending
`target.startLine` order in place; on any two changes at lines 0 and 5
the caller's array observably differs after the call. -/
theorem C10_sort_in_place :
    (∀ changes : List CodeChange,
        (applyChangesPost changes).Perm changes ∧
        (applyChangesPost changes).Pairwise (fun a b => changeGE a b = true)) ∧
      applyChangesPost [c10a, c10b] ≠ [c10a, c10b] := by
  constructor
  · intro changes
    refine ⟨jsSort_perm changeGE changes, ?_⟩
    refine jsSort_pairwise changeGE ?_ ?_ changes
    · intro a b
      rcases Nat.le_total b.location.startLine a.location.startLine with h | h
      · exact Or.inl (by simpa [changeGE] using h)
      · exact Or.inr (by simpa [changeGE] using h)
    · intro a b c h1 h2
      simp only [changeGE, decide_eq_true_eq] at *
      omega
  · decide

/-! ## Claim theorems: the rule extractor -/

/-- C4 (amended): on the four-line CSS file the extractor reports the
rule `body` at 1-based lines 1-3 with properties `color: red`, and the
rule `.x` at 1-based lines 3-4 with properties `margin: 0` — the second
match of the rule regex starts with the newline that precedes `.x`, so
its reported start line is 3, not 4. -/
theorem C4_line_numbers :
    parseCSSFromFiles [c4file] =
      [{ selector := chars "body", properties := [(chars "color", chars "red")],
         startLine := 0, endLine := 2,
         rawContent := chars "body \x7b\n  color: red;\n\x7d",
         source := chars "styles.css", fileName := chars "styles.css",
         lineNumber := 1, endLineNumber := 3 },
       { selector := chars ".x", properties := [(chars "margin", chars "0")],
         startLine := 2, endLine := 3,
         rawContent := chars "\n.x \x7b margin: 0; \x7d",
         source := chars "styles.css", fileName := chars "styles.css",
         lineNumber := 3, endLineNumber := 4 }] := by
  decide

/-- C4 counterexample: the claim places the `.x` rule at 1-based line 4;
the extractor reports its start line as 3 (its end line is 4). -/
theorem C4_line_numbers_counterexample :
    ((parseCSSFromFiles [c4file]).map (fun r => r.lineNumber) = [1, 3]) ∧
    ¬ (∃ r ∈ parseCSSFromFiles [c4file],
        r.selector = chars ".x" ∧ r.lineNumber = 4) := by
  constructor <;> decide

/-! ## Lemmas: the CSS rule finder -/

theorem cumDepth_head (d : Int) (line : Chars) (rest : List Chars) :
    cumDepth d (line :: rest) 1 = d + braceDelta line := by
  simp [cumDepth]

theorem cumDepth_shift (d : Int) (line : Chars) (rest : List Chars) (k : Nat) :
    cumDepth d (line :: rest) (k + 2) = cumDepth (d + braceDelta line) rest (k + 1) := by
  simp only [cumDepth, List.take_succ_cons, List.map_cons, List.sum_cons]
  ring

theorem findCSSRuleClose_eq (all : List Chars) (s : Nat) :
    ∀ (rem : List Chars) (d : Int) (i : Nat),
      findCSSRuleClose all s d rem i =
        match firstIdxWhere (fun x => x = 0)
            ((List.range rem.length).map (fun k => cumDepth d rem (k + 1))) with
        | none => none
        | some k =>
          some { startLine := s, endLine := i + k, startCol := 0,
                 endCol := (rem.getD k []).length,
                 content := joinLines ((all.drop s).take (i + k + 1 - s)) } := by
  intro rem
  induction rem with
  | nil => intro d i; simp [findCSSRuleClose, firstIdxWhere]
  | cons line rest ih =>
    intro d i
    have hmap : (List.range (line :: rest).length).map (fun k => cumDepth d (line :: rest) (k + 1))
        = (d + braceDelta line) ::
          (List.range rest.length).map (fun k => cumDepth (d + braceDelta line) rest (k + 1)) := by
      have hfun : ((fun k => cumDepth d (line :: rest) (k + 1)) ∘ Nat.succ)
          = (fun k => cumDepth (d + braceDelta line) rest (k + 1)) := by
        funext k
        simp only [Function.comp_apply]
        exact cumDepth_shift d line rest k
      rw [List.length_cons, List.range_succ_eq_map, List.map_cons, List.map_map, hfun,
        cumDepth_head]
    rw [hmap]
    simp only [findCSSRuleClose]
    by_cases hz : d + braceDelta line = 0
    · rw [if_pos hz]
      simp [firstIdxWhere, hz]
    · rw [if_neg hz]
      rw [ih (d + braceDelta line) (i + 1)]
      simp only [firstIdxWhere]
      rw [if_neg (by simpa using hz)]
      cases hfw : firstIdxWhere (fun x => x = 0)
          ((List.range rest.length).map (fun k => cumDepth (d + braceDelta line) rest (k + 1))) with
      | none => simp
      | some k =>
        have harith : i + 1 + k = i + (k + 1) := by omega
        simp [List.getD_cons_succ, harith]

theorem findCSSRuleOpen_eq (sel : Chars) (all : List Chars) :
    ∀ (rem : List Chars) (i : Nat),
      findCSSRuleOpen sel all rem i =
        match firstIdxWhere (fun l => selectorMatches sel l) rem with
        | none => none
        | some j =>
          if braceDelta (rem.getD j []) = 0 then
            some { startLine := i + j, endLine := i + j, startCol := 0,
                   endCol := (rem.getD j []).length, content := rem.getD j [] }
          else
            findCSSRuleClose all (i + j) (braceDelta (rem.getD j []))
              (rem.drop (j + 1)) (i + j + 1) := by
  intro rem
  induction rem with
  | nil => intro i; simp [findCSSRuleOpen, firstIdxWhere]
  | cons line rest ih =>
    intro i
    simp only [findCSSRuleOpen, firstIdxWhere]
    by_cases hm : selectorMatches sel line = true
    · rw [if_pos hm, if_pos hm]
      simp [List.getD_cons_zero]
    · rw [if_neg hm, if_neg hm]
      rw [ih (i + 1)]
      cases hfw : firstIdxWhere (fun l => selectorMatches sel l) rest with
      | none => simp
      | some j =>
        have harith : i + 1 + j = i + (j + 1) := by omega
        simp [List.getD_cons_succ, List.drop_succ_cons, harith]

theorem findCSSRule_eq_spec (sel code : Chars) :
    findCSSRule sel code = findCSSRuleSpec sel code := by
  unfold findCSSRule findCSSRuleSpec
  rw [findCSSRuleOpen_eq]
  simp only [Nat.zero_add]
  cases hfw : firstIdxWhere (fun l => selectorMatches sel l) (splitLines code) with
  | none => rfl
  | some j =>
    dsimp only
    by_cases hz : braceDelta ((splitLines code).getD j []) = 0
    · rw [if_pos hz, if_pos hz]
    · rw [if_neg hz, if_neg hz]
      rw [findCSSRuleClose_eq]
      cases hfz : firstIdxWhere (fun x => x = 0)
          ((List.range ((splitLines code).drop (j + 1)).length).map
            (fun k => cumDepth (braceDelta ((splitLines code).getD j []))
              ((splitLines code).drop (j + 1)) (k + 1))) with
      | none => rfl
      | some k =>
        dsimp only
        have htake : j + 1 + k + 1 - j = k + 2 := by omega
        rw [htake]

/-! ## Claim theorem: the CSS rule finder -/

/-- C7: `findCSSRule` behaves exactly as described: it opens a rule at
the first line matching the case-insensitive whitespace-tolerant escaped
selector regex, initializes the depth to that line's brace delta,
returns a single-line span when the delta is zero, otherwise accumulates
raw brace deltas over the following lines and returns the span from the
opening line to the first line on which the depth returns to zero, with
content the joined text of the range; the first match wins, and a rule
that never closes yields not-found. -/
theorem C7_findCSSRule_characterization (sel code : Chars) :
    findCSSRule sel code = findCSSRuleSpec sel code :=
  findCSSRule_eq_spec sel code

/-! ## Lemmas: the head finder -/

theorem findHtmlHeadLoop_close_eq (h0 : Nat) :
    ∀ (rem : List Chars) (i : Nat),
      findHtmlHeadLoop rem i (some h0) =
        (firstIdxWhere headCloseTest rem).map
          (fun k => { startLine := i + k, endLine := i + k, startCol := 0, endCol := 0,
                      content := [] }) := by
  intro rem
  induction rem with
  | nil => intro i; simp [findHtmlHeadLoop, firstIdxWhere]
  | cons line rest ih =>
    intro i
    simp only [findHtmlHeadLoop, firstIdxWhere]
    by_cases hc : headCloseTest line = true
    · rw [if_pos hc, if_pos hc]
      simp
    · rw [if_neg hc, if_neg hc]
      rw [ih (i + 1)]
      cases hfw : firstIdxWhere headCloseTest rest with
      | none => simp
      | some k =>
        have harith : i + 1 + k = i + (k + 1) := by omega
        simp [harith]

theorem findHtmlHeadLoop_eq :
    ∀ (rem : List Chars) (i : Nat),
      findHtmlHeadLoop rem i none =
        match firstIdxWhere headOpenTest rem with
        | none => none
        | some j =>
          (firstIdxWhere headCloseTest (rem.drop j)).map
            (fun k => { startLine := i + j + k, endLine := i + j + k, startCol := 0,
                        endCol := 0, content := [] }) := by
  intro rem
  induction rem with
  | nil => intro i; simp [findHtmlHeadLoop, firstIdxWhere]
  | cons line rest ih =>
    intro i
    simp only [findHtmlHeadLoop, firstIdxWhere]
    by_cases ho : headOpenTest line = true
    · rw [if_pos ho, if_pos ho]
      dsimp only [List.drop_zero]
      by_cases hc : headCloseTest line = true
      · rw [if_pos hc]
        simp [firstIdxWhere, hc]
      · rw [if_neg hc]
        rw [findHtmlHeadLoop_close_eq i rest (i + 1)]
        simp only [firstIdxWhere, if_neg hc]
        cases hfz : firstIdxWhere headCloseTest rest with
        | none => simp
        | some k =>
          have harith : i + 1 + k = i + 0 + (k + 1) := by omega
          simp [harith]
    · rw [if_neg ho, if_neg ho]
      rw [ih (i + 1)]
      cases hfw : firstIdxWhere headOpenTest rest with
      | none => simp
      | some j =>
        have harith : i + 1 + j = i + (j + 1) := by omega
        simp [List.drop_succ_cons, harith]

theorem findHtmlHead_eq_spec (code : Chars) :
    findHtmlHead code = findHtmlHeadSpec code := by
  unfold findHtmlHead findHtmlHeadSpec
  rw [findHtmlHeadLoop_eq]
  cases hfw : firstIdxWhere headOpenTest (splitLines code) with
  | none => rfl
  | some j =>
    dsimp only
    cases hfz : firstIdxWhere headCloseTest ((splitLines code).drop j) with
    | none => rfl
    | some k => simp

/-! ## Claim theorems: the head finder and its fallback -/

/-- C6 (amended): `findHtmlHead` returns the zero-width column 0-0 span
on the first line containing a closing head tag at or after the first
line matching an opening head tag, and not-found when either tag is
missing (proved as equality with the declarative search); on the
head-less input it returns not-found, and there the regex-append
fallback leaves the buffer unchanged — the snippet reaches the user
through the first fallback tier of `handleApplyAll`, which sends the
generated tags themselves when no file content includes `<head`.  On a
buffer whose head tag is never closed, `findHtmlHead` is also not-found
and the regex-append fallback does produce a buffer containing the
snippet. -/
theorem C6_head_insertion_fallback :
    (∀ code : Chars, findHtmlHead code = findHtmlHeadSpec code) ∧
    findHtmlHead c6buf = none ∧
    regexAppendFallback c6buf c6tags = c6buf ∧
    handleApplyAllCode [c6file] c6tags = c6tags ∧
    findHtmlHead c6buf2 = none ∧
    hasSub c6tags (regexAppendFallback c6buf2 c6tags) = true := by
  exact ⟨findHtmlHead_eq_spec, by decide, by decide, by decide, by decide, by decide⟩

/-- C6 counterexample: on the head-less input the claim asserts the
regex-append fallback still produces a buffer containing the injected
snippet; the replace finds no match, returns the buffer unchanged, and
the snippet is absent from it. -/
theorem C6_fallback_counterexample :
    findHtmlHead c6buf = none ∧
    regexAppendFallback c6buf c6tags = c6buf ∧
    hasSub c6tags (regexAppendFallback c6buf c6tags) = false := by
  exact ⟨by decide, by decide, by decide⟩

/-! ## Lemmas: indexed maps and buffer indexing -/

theorem firstIdxWhere_some_lt {p : α → Bool} :
    ∀ (l : List α) (j : Nat), firstIdxWhere p l = some j → j < l.length := by
  intro l
  induction l with
  | nil => intro j h; simp [firstIdxWhere] at h
  | cons a rest ih =>
    intro j h
    simp only [firstIdxWhere] at h
    by_cases hp : p a = true
    · rw [if_pos hp] at h
      injection h with h0
      simp [← h0]
    · rw [if_neg hp] at h
      rcases Option.map_eq_some'.mp h with ⟨k, hk, hj⟩
      have := ih k hk
      simp only [List.length_cons]
      omega

theorem mapWithIdx_length (f : Nat → α → β) :
    ∀ (a : List α) (n : Nat), (mapWithIdx f a n).length = a.length := by
  intro a
  induction a with
  | nil => intro n; rfl
  | cons x rest ih => intro n; simp [mapWithIdx, ih]

theorem mapWithIdx_append (f : Nat → α → β) :
    ∀ (a b : List α) (n : Nat),
      mapWithIdx f (a ++ b) n = mapWithIdx f a n ++ mapWithIdx f b (n + a.length) := by
  intro a
  induction a with
  | nil => intro b n; simp [mapWithIdx]
  | cons x rest ih =>
    intro b n
    simp only [List.cons_append, List.append_eq, mapWithIdx, List.length_cons]
    rw [ih b (n + 1)]
    have harith : n + 1 + rest.length = n + (rest.length + 1) := by omega
    rw [harith]

theorem mapWithIdx_congr (f g : Nat → α → β) :
    ∀ (a : List α) (n m : Nat),
      (∀ t, t < a.length → ∀ x, f (n + t) x = g (m + t) x) →
      mapWithIdx f a n = mapWithIdx g a m := by
  intro a
  induction a with
  | nil => intro n m _; rfl
  | cons x rest ih =>
    intro n m h
    simp only [mapWithIdx]
    have h0 : f n x = g m x := by simpa using h 0 (by simp) x
    rw [h0]
    have htail : mapWithIdx f rest (n + 1) = mapWithIdx g rest (m + 1) := by
      refine ih (n + 1) (m + 1) ?_
      intro t ht x
      have := h (t + 1) (by simp only [List.length_cons]; omega) x
      have e1 : n + (t + 1) = n + 1 + t := by omega
      have e2 : m + (t + 1) = m + 1 + t := by omega
      rw [e1, e2] at this
      exact this
    rw [htail]

theorem mapWithIdx_eq_self (pre : Chars) (C : Nat → Prop) [DecidablePred C] :
    ∀ (a : List Chars) (n : Nat), (∀ t, t < a.length → ¬ C (n + t)) →
      mapWithIdx (fun t l => if C t then pre ++ l else l) a n = a := by
  intro a
  induction a with
  | nil => intro n _; rfl
  | cons x rest ih =>
    intro n h
    simp only [mapWithIdx]
    rw [if_neg (by simpa using h 0 (by simp))]
    rw [ih (n + 1) (fun t ht => by
      have := h (t + 1) (by simp only [List.length_cons]; omega)
      have e : n + (t + 1) = n + 1 + t := by omega
      rw [e] at this
      exact this)]

theorem mapWithIdx_eq_map (pre : Chars) (C : Nat → Prop) [DecidablePred C] :
    ∀ (a : List Chars) (n : Nat), (∀ t, t < a.length → C (n + t)) →
      mapWithIdx (fun t l => if C t then pre ++ l else l) a n
        = a.map (fun l => pre ++ l) := by
  intro a
  induction a with
  | nil => intro n _; rfl
  | cons x rest ih =>
    intro n h
    simp only [mapWithIdx, List.map_cons]
    rw [if_pos (by simpa using h 0 (by simp))]
    rw [ih (n + 1) (fun t ht => by
      have := h (t + 1) (by simp only [List.length_cons]; omega)
      have e : n + (t + 1) = n + 1 + t := by omega
      rw [e] at this
      exact this)]

theorem getD_no_nl {L : List Chars} (h : ∀ l ∈ L, '\n' ∉ l) (t : Nat) :
    '\n' ∉ L.getD t [] := by
  induction L generalizing t with
  | nil => simp [List.getD]
  | cons x rest ih =>
    cases t with
    | zero => simpa using h x (List.mem_cons_self x rest)
    | succ t' => simpa using ih (fun l hl => h l (List.mem_cons_of_mem x hl)) t'

theorem take_append_getD_drop (l : List Chars) :
    ∀ (i : Nat), i < l.length →
      l.take i ++ l.getD i [] :: l.drop (i + 1) = l := by
  induction l with
  | nil => intro i h; simp at h
  | cons x rest ih =>
    intro i h
    cases i with
    | zero => simp
    | succ i' =>
      simp only [List.take_succ_cons, List.getD_cons_succ, List.drop_succ_cons,
        List.cons_append]
      rw [ih i' (by simpa using h)]

theorem indentOf_ws (lines : List Chars) (i : Nat) :
    ∀ c ∈ indentOf lines i, jsWS c = true := by
  intro c hc
  unfold indentOf at hc
  split at hc
  · exact (by decide : ∀ c ∈ chars "  ", jsWS c = true) c hc
  · exact List.mem_takeWhile_imp hc

theorem indentOf_no_nl (lines : List Chars) (i : Nat)
    (h : '\n' ∉ lines.getD i []) : '\n' ∉ indentOf lines i := by
  unfold indentOf
  split
  · decide
  · intro hmem
    exact h ((List.takeWhile_sublist jsWS).subset hmem)

theorem getIndentedContent_spec (lines : List Chars) (i : Nat) (span : List Chars)
    (hne : span ≠ []) (hnl : ∀ l ∈ span, '\n' ∉ l) :
    getIndentedContent lines (joinLines span) i =
      joinLines (mapWithIdx (fun t l => if t = 0 then l else indentOf lines i ++ l) span 0) := by
  unfold getIndentedContent
  rw [splitLines_joinLines span hne hnl]

theorem mapWithIdx_no_nl (ind : Chars) (hind : '\n' ∉ ind) :
    ∀ (span : List Chars) (n : Nat), (∀ l ∈ span, '\n' ∉ l) →
      ∀ l ∈ mapWithIdx (fun t l => if t = 0 then l else ind ++ l) span n, '\n' ∉ l := by
  intro span
  induction span with
  | nil => intro n _ l hl; simp [mapWithIdx] at hl
  | cons x rest ih =>
    intro n h l hl
    rcases List.mem_cons.mp hl with h1 | h1
    · subst h1
      dsimp only
      split
      · exact h x (List.mem_cons_self x rest)
      · intro hmem
        rcases List.mem_append.mp hmem with h2 | h2
        · exact hind h2
        · exact h x (List.mem_cons_self x rest) h2
    · exact ih (n + 1) (fun y hy => h y (List.mem_cons_of_mem x hy)) l h1

theorem splitLines_indented (lines : List Chars) (i : Nat) (span : List Chars)
    (hne : span ≠ []) (hnl : ∀ l ∈ span, '\n' ∉ l) (hnlind : '\n' ∉ indentOf lines i) :
    splitLines (getIndentedContent lines (joinLines span) i) =
      mapWithIdx (fun t l => if t = 0 then l else indentOf lines i ++ l) span 0 := by
  rw [getIndentedContent_spec lines i span hne hnl]
  apply splitLines_joinLines
  · intro hcontra
    have hlen := congrArg List.length hcontra
    rw [mapWithIdx_length] at hlen
    exact hne (List.length_eq_zero.mp hlen)
  · exact mapWithIdx_no_nl (indentOf lines i) hnlind span 0 hnl

theorem splitLines_of_no_nl {l : Chars} (h : '\n' ∉ l) : splitLines l = [l] :=
  splitOnChar_of_not_mem h

/-! ## Claim theorems: the splice round trip -/

/-- C1 (amended): replacing a span located by `findCSSRule` with its own
content yields the original buffer except that every span line after the
first gains a leading-whitespace prefix — the indent of the span's
opening line, two spaces when that line has no leading whitespace —
inserted by the reindenting of `replaceAtLocation`; this is a
leading-whitespace insertion on interior span lines, not a
trailing-whitespace normalization.  A single-line span round-trips
exactly, the prefix condition being vacuous there. -/
theorem C1_replace_roundtrip (sel code : Chars) (loc : CodeLocation)
    (h : findCSSRule sel code = some loc) :
    ∃ pre : Chars, (∀ c ∈ pre, jsWS c = true) ∧
      replaceAtLocation code loc loc.content =
        joinLines (mapWithIdx
          (fun t l => if loc.startLine < t ∧ t ≤ loc.endLine then pre ++ l else l)
          (splitLines code) 0) := by
  rw [findCSSRule_eq_spec] at h
  unfold findCSSRuleSpec at h
  have hallnl : ∀ l ∈ splitLines code, '\n' ∉ l := fun l hl => splitLines_no_nl hl
  cases hfw : firstIdxWhere (fun l => selectorMatches sel l) (splitLines code) with
  | none => rw [hfw] at h; exact absurd h (by simp)
  | some j =>
    rw [hfw] at h
    dsimp only at h
    have hj : j < (splitLines code).length := firstIdxWhere_some_lt _ j hfw
    by_cases hz : braceDelta ((splitLines code).getD j []) = 0
    · rw [if_pos hz] at h
      injection h with h
      subst h
      refine ⟨indentOf (splitLines code) j, indentOf_ws _ _, ?_⟩
      have hLnl : '\n' ∉ (splitLines code).getD j [] := getD_no_nl hallnl j
      have hone : getIndentedContent (splitLines code) ((splitLines code).getD j []) j
          = (splitLines code).getD j [] := by
        have hspec := getIndentedContent_spec (splitLines code) j
          [(splitLines code).getD j []] (by simp)
          (by
            intro l hl
            rcases List.mem_cons.mp hl with h1 | h1
            · subst h1; exact hLnl
            · simp at h1)
        simpa [joinLines, joinWithChar, mapWithIdx] using hspec
      unfold replaceAtLocation
      dsimp only
      rw [hone, splitLines_of_no_nl hLnl]
      have hcnt : j + 1 - j = 1 := by omega
      rw [hcnt]
      unfold spliceList
      have hsplice : (splitLines code).take j ++ [(splitLines code).getD j []] ++
          (splitLines code).drop (j + 1) = splitLines code := by
        have := take_append_getD_drop (splitLines code) j hj
        simpa [List.append_assoc] using this
      rw [mapWithIdx_eq_self (indentOf (splitLines code) j) (fun t => j < t ∧ t ≤ j)
        (splitLines code) 0 (by intro t ht; omega)]
      exact congrArg joinLines hsplice
    · rw [if_neg hz] at h
      cases hfz : firstIdxWhere (fun d => d = 0)
          ((List.range ((splitLines code).drop (j + 1)).length).map
            (fun k => cumDepth (braceDelta ((splitLines code).getD j []))
              ((splitLines code).drop (j + 1)) (k + 1))) with
      | none => rw [hfz] at h; exact absurd h (by simp)
      | some k =>
        rw [hfz] at h
        dsimp only at h
        injection h with h
        subst h
        refine ⟨indentOf (splitLines code) j, indentOf_ws _ _, ?_⟩
        have hk : k < ((splitLines code).drop (j + 1)).length := by
          have := firstIdxWhere_some_lt _ k hfz
          simpa using this
        have hjk : j + 1 + k < (splitLines code).length := by
          rw [List.length_drop] at hk
          omega
        have hspanlen : (((splitLines code).drop j).take (k + 2)).length = k + 2 := by
          rw [List.length_take, List.length_drop]
          omega
        have hspannil : ((splitLines code).drop j).take (k + 2) ≠ [] := by
          intro hcon
          have hlen := congrArg List.length hcon
          rw [hspanlen] at hlen
          simp at hlen
        have hspannl : ∀ l ∈ ((splitLines code).drop j).take (k + 2), '\n' ∉ l := by
          intro l hl
          exact hallnl l (List.mem_of_mem_drop (List.mem_of_mem_take hl))
        have hindnl : '\n' ∉ indentOf (splitLines code) j :=
          indentOf_no_nl _ _ (getD_no_nl hallnl j)
        unfold replaceAtLocation
        dsimp only
        rw [splitLines_indented (splitLines code) j _ hspannil hspannl hindnl]
        have hcnt : j + 1 + k + 1 - j = k + 2 := by omega
        rw [hcnt]
        unfold spliceList
        refine congrArg joinLines ?_
        set pre := indentOf (splitLines code) j with hpre
        have hdecomp : splitLines code =
            (splitLines code).take j ++
              (((splitLines code).drop j).take (k + 2) ++
                (splitLines code).drop (j + (k + 2))) := by
          have h1 := List.take_append_drop (k + 2) ((splitLines code).drop j)
          rw [List.drop_drop] at h1
          rw [h1]
          exact (List.take_append_drop j _).symm
        conv_rhs => rw [hdecomp]
        have hlentake : ((splitLines code).take j).length = j := by
          rw [List.length_take]
          omega
        rw [mapWithIdx_append, mapWithIdx_append, hlentake, hspanlen]
        simp only [Nat.zero_add]
        rw [mapWithIdx_eq_self pre
          (fun t => j < t ∧ t ≤ j + 1 + k) ((splitLines code).take j) 0 (by
            intro t ht
            rw [hlentake] at ht
            omega)]
        have hmid : mapWithIdx
            (fun t l => if j < t ∧ t ≤ j + 1 + k then pre ++ l else l)
            (((splitLines code).drop j).take (k + 2)) j =
            mapWithIdx (fun t l => if t = 0 then l else pre ++ l)
              (((splitLines code).drop j).take (k + 2)) 0 := by
          refine mapWithIdx_congr _ _ _ j 0 ?_
          intro t ht x
          rw [hspanlen] at ht
          by_cases ht0 : t = 0
          · subst ht0
            simp
          · rw [if_pos ⟨by omega, by omega⟩, if_neg (by omega)]
        rw [hmid]
        rw [mapWithIdx_eq_self pre
          (fun t => j < t ∧ t ≤ j + 1 + k) ((splitLines code).drop (j + (k + 2)))
          (j + (k + 2)) (by intro t ht; omega)]
        rw [List.append_assoc]

/-- C1 counterexample: on the three-line rule `body` the claim promises
a buffer identical to the original up to trailing-whitespace
normalization; the round trip instead prepends two spaces to the two
interior span lines, and the buffers differ even after stripping
trailing whitespace from every line. -/
theorem C1_roundtrip_counterexample :
    findCSSRule (chars "body") c1buf = some c1loc ∧
    normTrailing (replaceAtLocation c1buf c1loc c1loc.content) ≠ normTrailing c1buf ∧
    replaceAtLocation c1buf c1loc c1loc.content =
      chars "body \x7b\n    color: red;\n  \x7d" := by
  exact ⟨by decide, by decide, by decide⟩

/-- C1 witness: the round-trip theorem applied to the concrete
three-line rule. -/
theorem C1_replace_roundtrip_witness :
    ∃ pre : Chars, (∀ c ∈ pre, jsWS c = true) ∧
      replaceAtLocation c1buf c1loc c1loc.content =
        joinLines (mapWithIdx
          (fun t l => if c1loc.startLine < t ∧ t ≤ c1loc.endLine then pre ++ l else l)
          (splitLines c1buf) 0) :=
  C1_replace_roundtrip (chars "body") c1buf c1loc (by decide)

/-! ## Lemmas: batch deletion -/

theorem getD_set_eq (l : List Chars) :
    ∀ (i : Nat) (a : Chars), i < l.length → (l.set i a).getD i [] = a := by
  induction l with
  | nil => intro i a h; simp at h
  | cons x rest ih =>
    intro i a h
    cases i with
    | zero => simp
    | succ i' => simpa using ih i' a (by simpa using h)

theorem getD_set_ne (l : List Chars) :
    ∀ (i j : Nat) (a : Chars), i ≠ j → (l.set i a).getD j [] = l.getD j [] := by
  induction l with
  | nil => intro i j a _; simp
  | cons x rest ih =>
    intro i j a h
    cases i with
    | zero =>
      cases j with
      | zero => exact absurd rfl h
      | succ j' => simp
    | succ i' =>
      cases j with
      | zero => simp
      | succ j' => simpa using ih i' j' a (by omega)

theorem splitLines_deleteAtLocation (code : Chars) (loc : CodeLocation)
    (hsl : loc.startLine = loc.endLine) :
    splitLines (deleteAtLocation code loc) =
      (splitLines code).set loc.startLine
        (((splitLines code).getD loc.startLine []).take loc.startCol ++
          ((splitLines code).getD loc.startLine []).drop loc.endCol) := by
  unfold deleteAtLocation
  rw [if_pos hsl]
  apply splitLines_joinLines
  · intro hcon
    have hlen := congrArg List.length hcon
    rw [List.length_set] at hlen
    exact splitLines_ne_nil code (List.length_eq_zero.mp hlen)
  · intro l hl
    rcases List.mem_or_eq_of_mem_set hl with h1 | h1
    · exact splitLines_no_nl h1
    · subst h1
      intro hmem
      rcases List.mem_append.mp hmem with h2 | h2
      · exact getD_no_nl (fun x hx => splitLines_no_nl hx) loc.startLine
          (List.mem_of_mem_take h2)
      · exact getD_no_nl (fun x hx => splitLines_no_nl hx) loc.startLine
          (List.mem_of_mem_drop h2)

theorem find?_eq_some_of_unique {p : CodeChange → Bool} :
    ∀ {l : List CodeChange} {a : CodeChange}, a ∈ l → p a = true →
      (∀ y ∈ l, p y = true → y = a) → l.find? p = some a := by
  intro l
  induction l with
  | nil => intro a h; simp at h
  | cons b rest ih =>
    intro a ha hpa huniq
    by_cases hpb : p b = true
    · rw [List.find?_cons_of_pos _ hpb]
      exact congrArg some (huniq b (List.mem_cons_self b rest) hpb)
    · rw [List.find?_cons_of_neg _ (by simpa using hpb)]
      rcases List.mem_cons.mp ha with h1 | h1
      · subst h1; exact absurd hpa hpb
      · exact ih h1 hpa (fun y hy hpy => huniq y (List.mem_cons_of_mem b hy) hpy)

theorem startLine_ne_symmetric :
    Symmetric (fun a b : CodeChange => a.location.startLine ≠ b.location.startLine) :=
  fun _ _ h => fun e => h e.symm

theorem deleteOnLine_perm {ops ops' : List CodeChange} (hperm : ops.Perm ops')
    (hdist : ops.Pairwise (fun a b => a.location.startLine ≠ b.location.startLine))
    (t : Nat) (l : Chars) :
    deleteOnLine ops t l = deleteOnLine ops' t l := by
  unfold deleteOnLine
  cases hf : ops.find? (fun op => op.location.startLine = t) with
  | none =>
    have hnone : ops'.find? (fun op => op.location.startLine = t) = none := by
      rw [List.find?_eq_none]
      intro x hx
      exact (List.find?_eq_none.mp hf) x (hperm.mem_iff.mpr hx)
    rw [hnone]
  | some a =>
    have hpa := List.find?_some hf
    have hma := List.mem_of_find?_eq_some hf
    have hsome : ops'.find? (fun op => op.location.startLine = t) = some a := by
      refine find?_eq_some_of_unique (hperm.mem_iff.mp hma) hpa ?_
      intro y hy hpy
      by_contra hne
      have hR := hdist.forall startLine_ne_symmetric (hperm.mem_iff.mpr hy) hma hne
      have hyt : y.location.startLine = t := by simpa using hpy
      have hat : a.location.startLine = t := by simpa using hpa
      exact hR (hyt.trans hat.symm)
    rw [hsome]

theorem foldl_delete_pointwise :
    ∀ (ops : List CodeChange) (code : Chars),
      (∀ op ∈ ops, validDelete (splitLines code) op) →
      ops.Pairwise (fun a b => a.location.startLine ≠ b.location.startLine) →
      ((splitLines (ops.foldl applyOneChange code)).length = (splitLines code).length ∧
        ∀ t, (splitLines (ops.foldl applyOneChange code)).getD t [] =
          deleteOnLine ops t ((splitLines code).getD t [])) := by
  intro ops
  induction ops with
  | nil =>
    intro code _ _
    exact ⟨rfl, fun t => rfl⟩
  | cons op rest ih =>
    intro code hval hdist
    obtain ⟨hty, hsl, hlt, _, _⟩ := hval op (List.mem_cons_self op rest)
    have happ : applyOneChange code op = deleteAtLocation code op.location := by
      unfold applyOneChange
      rw [hty]
    have hsplit : splitLines (applyOneChange code op) =
        (splitLines code).set op.location.startLine
          (((splitLines code).getD op.location.startLine []).take op.location.startCol ++
            ((splitLines code).getD op.location.startLine []).drop op.location.endCol) := by
      rw [happ]
      exact splitLines_deleteAtLocation code op.location hsl
    have hfold : (op :: rest).foldl applyOneChange code
        = rest.foldl applyOneChange (applyOneChange code op) := rfl
    have hdisthead := List.pairwise_cons.mp hdist
    have hval' : ∀ op' ∈ rest, validDelete (splitLines (applyOneChange code op)) op' := by
      intro op' hop'
      obtain ⟨ht', hs', hl', hc', he'⟩ := hval op' (List.mem_cons_of_mem op hop')
      have hne : op.location.startLine ≠ op'.location.startLine := hdisthead.1 op' hop'
      refine ⟨ht', hs', ?_, hc', ?_⟩
      · rw [hsplit, List.length_set]; exact hl'
      · rw [hsplit, getD_set_ne _ _ _ _ hne]; exact he'
    have hih := ih (applyOneChange code op) hval' hdisthead.2
    refine ⟨?_, ?_⟩
    · rw [hfold, hih.1, hsplit, List.length_set]
    · intro t
      rw [hfold, hih.2 t, hsplit]
      by_cases hteq : op.location.startLine = t
      · subst hteq
        rw [getD_set_eq _ _ _ hlt]
        have hnone : rest.find?
            (fun o => o.location.startLine = op.location.startLine) = none := by
          rw [List.find?_eq_none]
          intro x hx hpx
          have hx2 : x.location.startLine = op.location.startLine := by simpa using hpx
          exact (hdisthead.1 x hx) hx2.symm
        unfold deleteOnLine
        rw [hnone]
        simp [List.find?]
      · rw [getD_set_ne _ _ _ _ hteq]
        unfold deleteOnLine
        simp [List.find?, hteq]

theorem ext_of_getD : ∀ (l₁ l₂ : List Chars), l₁.length = l₂.length →
    (∀ t, l₁.getD t [] = l₂.getD t []) → l₁ = l₂ := by
  intro l₁
  induction l₁ with
  | nil =>
    intro l₂ hlen _
    symm
    exact List.length_eq_zero.mp (by simpa using hlen.symm)
  | cons x rest ih =>
    intro l₂ hlen hget
    cases l₂ with
    | nil => simp at hlen
    | cons y rest₂ =>
      have h0 := hget 0
      simp only [List.getD_cons_zero] at h0
      subst h0
      rw [ih rest₂ (by simpa using hlen) (fun t => by simpa using hget (t + 1))]

/-! ## Claim theorems: batch application -/

/-- C5: a batch of independent single-line delete operations at
pairwise-distinct lines removes exactly the targeted column ranges of
the targeted lines (every other line is untouched and the line count is
preserved), and the resulting buffer is the same for every permutation
of the batch — `applyChanges` sorts the operations by start line
descending and applies them sequentially, each against the buffer
produced by the previous one, and single-line deletes never shift line
numbers. -/
theorem C5_batch_noninterference (code : Chars) (ops : List CodeChange)
    (hval : ∀ op ∈ ops, validDelete (splitLines code) op)
    (hdist : ops.Pairwise (fun a b => a.location.startLine ≠ b.location.startLine)) :
    ((splitLines (applyChanges code ops)).length = (splitLines code).length ∧
      ∀ t, (splitLines (applyChanges code ops)).getD t [] =
        deleteOnLine ops t ((splitLines code).getD t [])) ∧
    (∀ ops' : List CodeChange, ops'.Perm ops →
      applyChanges code ops' = applyChanges code ops) := by
  have main : ∀ ops₂ : List CodeChange, ops₂.Perm ops →
      ((splitLines (applyChanges code ops₂)).length = (splitLines code).length ∧
        ∀ t, (splitLines (applyChanges code ops₂)).getD t [] =
          deleteOnLine ops t ((splitLines code).getD t [])) := by
    intro ops₂ hperm
    have hsorted : (jsSort changeGE ops₂).Perm ops :=
      (jsSort_perm changeGE ops₂).trans hperm
    have hval₂ : ∀ op ∈ jsSort changeGE ops₂, validDelete (splitLines code) op :=
      fun op hop => hval op (hsorted.mem_iff.mp hop)
    have hdist₂ : (jsSort changeGE ops₂).Pairwise
        (fun a b => a.location.startLine ≠ b.location.startLine) :=
      (hsorted.pairwise_iff (fun h e => h e.symm)).mpr hdist
    have hpoint := foldl_delete_pointwise (jsSort changeGE ops₂) code hval₂ hdist₂
    refine ⟨hpoint.1, ?_⟩
    intro t
    exact (hpoint.2 t).trans (deleteOnLine_perm hsorted hdist₂ t _)
  refine ⟨main ops (List.Perm.refl ops), ?_⟩
  intro ops' hperm'
  have h1 := main ops' hperm'
  have h2 := main ops (List.Perm.refl ops)
  have hlists : splitLines (applyChanges code ops') = splitLines (applyChanges code ops) :=
    ext_of_getD _ _ (by rw [h1.1, h2.1]) (fun t => by rw [h1.2 t, h2.2 t])
  calc applyChanges code ops'
      = joinLines (splitLines (applyChanges code ops')) := (joinLines_splitLines _).symm
    _ = joinLines (splitLines (applyChanges code ops)) := congrArg joinLines hlists
    _ = applyChanges code ops := joinLines_splitLines _

/-- C5 witness: the batch theorem applied to a three-line buffer with
two single-line deletes, in both batch orders. -/
theorem C5_batch_noninterference_witness :
    applyChanges c5buf [c5op2, c5op1] = applyChanges c5buf [c5op1, c5op2] ∧
    applyChanges c5buf [c5op1, c5op2] = chars "aa\nbbb\nc" :=
  ⟨(C5_batch_noninterference c5buf [c5op1, c5op2] (by decide) (by decide)).2
      [c5op2, c5op1] (by decide),
    by decide⟩

end Ode
